import Mathlib

/-!
A shallow embedding of the CSR sparse-graph construction pipeline of
`src/sparse_graph.h` (namespace `csc485b::a2::gpu`).

Modelling conventions:
* Device arrays are modelled as total functions out of `Nat` together with an
  explicit element count; a read or write past the allocated count is undefined
  behaviour in the source and is modelled by returning `none` from the
  operation that performs it.
* `node_t` values and counters are modelled as `Nat` (the counts involved are
  bounded by `m` and `n + 1`, far below the 32-bit wrap point, so no modular
  reduction arises in any reachable state).
* A CUDA kernel launch is modelled by its effect on the shared arrays.  Kernels
  launched on the default stream execute in launch order, which the
  orchestration function mirrors.  Within the scan kernels, the code between
  two consecutive `__syncthreads()` barriers performs all reads before any
  write, so one barrier-delimited phase is modelled as a simultaneous update of
  the shared buffer.  The per-edge atomic operations of `histogram` and `store`
  are modelled by processing the edge list sequentially in a schedule order;
  `build_graph_sched` takes the two schedules (one per kernel) as explicit
  permutations of the edge list, and `build_graph` is the canonical in-order
  schedule.
* `neighbours` entries are `Option Nat`, `none` marking a slot the construction
  never wrote (the storage is caller-allocated and uninitialized on entry).
-/

namespace A2

/-- Edge `(x, y)`: `x` is the source (`edge.x` in `data_types.h`), `y` the
destination. -/
abbrev Edge := Nat × Nat

/-! ### histogram kernel (sparse_graph.h lines 32-47)

One thread per edge index; a thread with `global_th_id < m` reads
`arr[global_th_id].x` and, if it is `< n`, atomically increments
`neighbours_start_at[x + 1]`.  The atomic increments commute, so a run is the
left fold of the per-edge update over the schedule order. -/

/-- Effect of one `histogram` thread on the offsets array. -/
def histStep (n : Nat) (off : Nat → Nat) (e : Edge) : Nat → Nat :=
  if e.1 < n then Function.update off (e.1 + 1) (off (e.1 + 1) + 1) else off

/-- Effect of the whole `histogram` launch on the offsets array. -/
def histogram (edges : List Edge) (n : Nat) (off : Nat → Nat) : Nat → Nat :=
  edges.foldl (histStep n) off

/-! ### the doubling-stride scan step shared by both scan kernels

In `prefix_sum` every thread `t < 1024` with `t >= stride` reads
`smem[t - stride]`, all threads barrier, the guarded threads add the value in,
and all threads barrier again; in `single_block_prefix_sum` the lane guard is
`my_lane < n && my_lane >= stride` and the reads come from the `scratch` copy
taken at the start of the stride round.  In both cases the round maps the
buffer `f` to `scanStep bound stride f` where `bound` is the thread/lane count
(1024 resp. `n`). -/

/-- One barrier-delimited doubling-stride round over a shared buffer. -/
def scanStep (bound stride : Nat) (f : Nat → Nat) : Nat → Nat :=
  fun l => if stride ≤ l ∧ l < bound then f l + f (l - stride) else f l

/-- Strides visited by `for (stride = 1; stride < bound; stride <<= 1)`,
computed with a structural fuel (`fuel = bound` always suffices since the
stride doubles every round). -/
def stridesGo (bound : Nat) : Nat → Nat → List Nat
  | 0, _ => []
  | fuel + 1, s => if s < bound then s :: stridesGo bound fuel (2 * s) else []

/-- Stride sequence `1, 2, 4, ...` of the scan loops. -/
def strides (bound : Nat) : List Nat := stridesGo bound bound 1

/-- The complete inclusive doubling-stride scan loop over a buffer of
`bound` active lanes. -/
def hsScan (bound : Nat) (f : Nat → Nat) : Nat → Nat :=
  (strides bound).foldl (fun g s => scanStep bound s g) f

/-! ### prefix_sum kernel (lines 53-94)

Launched with `numBlocks N` blocks of 1024 threads, argument `n := N = n+1`.
Thread `(b, t)` loads `offsets[(1024*b + t) % N]` into `smem[t]`, the block
scans `smem`, threads with `global < N` write the scanned value back, and the
thread at the last in-range position of the block
(`(global+1) % 1024 == 0 || global == N-1`) writes its value to
`block_sums[b]`.  A block's written-back values and its block sum depend only
on loads from indices `>= 1024*b` (no wraparound), which no other block
writes, so the effect is schedule-independent and is modelled from the
snapshot of `offsets` at kernel entry. -/

/-- Shared-memory load phase of block `b`: `smem[t] = offsets[(1024*b+t) % N]`. -/
def blockLoad (off : Nat → Nat) (N b : Nat) : Nat → Nat :=
  fun t => off ((1024 * b + t) % N)

/-- Contents of block `b`'s `smem` after the in-block scan. -/
def blockScan (off : Nat → Nat) (N b : Nat) : Nat → Nat :=
  hsScan 1024 (blockLoad off N b)

/-- Offsets array after the `prefix_sum` kernel: position `p < N` is written
by thread `(p / 1024, p % 1024)`; other positions are untouched. -/
def prefix_sum (off : Nat → Nat) (N : Nat) : Nat → Nat :=
  fun p => if p < N then blockScan off N (p / 1024) (p % 1024) else off p

/-- Thread index within block `b` that satisfies the `block_sums` write guard
`global < N && ((global+1) % 1024 == 0 || global == N-1)`: the lane 1023 in a
full block, the lane of `N-1` in the final partial block. -/
def lastLane (N b : Nat) : Nat := min 1023 (N - 1 - 1024 * b)

/-- `block_sums` output of the `prefix_sum` kernel. -/
def blockSums (off : Nat → Nat) (N : Nat) : Nat → Nat :=
  fun b => blockScan off N b (lastLane N b)

/-! ### single_block_prefix_sum kernel (lines 100-161)

One block of 1024 threads scans `arr[0..n)`; each thread owns the lanes
`th_id, th_id + 1024, ...` and every thread executes `max_number_items`
iterations per stride regardless of its own lane bound.  `smem` and `scratch`
are 6144-element shared buffers; the load loop writes `smem[data_idx]` and
`scratch[data_idx]` for every `data_idx < n`, so any `n > 6144` overruns both
buffers (undefined behaviour, modelled as `none`).  Per stride the kernel
copies `smem` into `scratch`, barriers, and then every in-range lane `l >=
stride` adds `scratch[l - stride]` into `smem[l]`; since `scratch` is the
snapshot of `smem` at the start of the round, the round equals
`scanStep n stride`. -/

/-- `max_number_items = n/1024 (+1 if n % 1024 != 0)`. -/
def maxNumberItems (n : Nat) : Nat := n / 1024 + (if n % 1024 = 0 then 0 else 1)

/-- Effect of `single_block_prefix_sum` on its array argument. -/
def single_block_prefix_sum (a : Nat → Nat) (n : Nat) : Option (Nat → Nat) :=
  if 6144 < n then none else some (hsScan n a)

/-! ### finish_prefix_sum kernel (lines 167-177)

`numBlocks N` blocks of 1024 threads; thread `p < N` in block `p / 1024 > 0`
adds `block_sums[p/1024 - 1]` to `offsets[p]`. -/

/-- Offsets array after the `finish_prefix_sum` kernel. -/
def finish_prefix_sum (off : Nat → Nat) (bsums : Nat → Nat) (N : Nat) :
    Nat → Nat :=
  fun p => if p < N ∧ 0 < p / 1024 then off p + bsums (p / 1024 - 1) else off p

/-- `num_blocks = ((n+1) + threads_per_block - 1) / threads_per_block`. -/
def numBlocks (N : Nat) : Nat := (N + 1024 - 1) / 1024

/-- The three chained scan stages of `build_graph`: `prefix_sum`,
`single_block_prefix_sum` over the block sums, `finish_prefix_sum`. -/
def scan_pipeline (off : Nat → Nat) (N : Nat) : Option (Nat → Nat) :=
  match single_block_prefix_sum (blockSums off N) (numBlocks N) with
  | none => none
  | some bs2 => some (finish_prefix_sum (prefix_sum off N) bs2 N)

/-- The offsets function produced by the scan stages when the capacity check
passes. -/
def pipelineF (off : Nat → Nat) (N : Nat) : Nat → Nat :=
  finish_prefix_sum (prefix_sum off N) (hsScan (numBlocks N) (blockSums off N)) N

/-! ### create_scratch kernel (lines 221-230)

Thread `v < n` copies `neighbours_start_at[v]` into `scratch[v]`.  Entries at
`v >= n` of the `n`-element scratch allocation are uninitialized; they are
never read, because `store` faults first on any index `>= n`. -/

/-- Scratch counter array after `create_scratch`. -/
def create_scratch (off : Nat → Nat) (n : Nat) : Nat → Nat :=
  fun v => if v < n then off v else 0

/-! ### store kernel (lines 199-215)

One thread per edge index `i < m`; for edge `(x, y)` it performs
`pos = atomicAdd(scratch + x, 1)` and writes `neighbours[pos] = y`.  The
kernel has no bound check on `x`: `scratch` has `n` elements, so `x >= n` is
an out-of-bounds access (`none`); likewise `neighbours` has `m` elements, so
`pos >= m` is out of bounds.  The atomic claims serialize in some schedule
order; a run is the sequential processing of the schedule. -/

/-- Mutable state of the scatter stage: the scratch counters and the
neighbours array. -/
structure StoreState where
  counter : Nat → Nat
  nb : Nat → Option Nat

/-- Effect of one `store` thread. -/
def storeStep (n m : Nat) (st : StoreState) (e : Edge) : Option StoreState :=
  if e.1 < n then
    if st.counter e.1 < m then
      some ⟨Function.update st.counter e.1 (st.counter e.1 + 1),
            Function.update st.nb (st.counter e.1) (some e.2)⟩
    else none
  else none

/-- Effect of the whole `store` launch, processing the schedule in order. -/
def store (n m : Nat) (edges : List Edge) (st : StoreState) : Option StoreState :=
  match edges with
  | [] => some st
  | e :: rest =>
    match storeStep n m st e with
    | none => none
    | some st1 => store n m rest st1

/-! ### build_graph orchestration (lines 238-268)

`histogram`, device synchronization, the three scan stages, device
synchronization, `create_scratch`, `store`.  `g.m` equals the length of the
edge list (stated precondition), so `m` is taken as `edges.length` of the
store schedule.  The result bundles the final offsets function and the final
neighbours function; `none` models a run that performed an out-of-bounds
access. -/

/-- Final state of the two caller-owned arrays. -/
structure BuiltGraph where
  offsets : Nat → Nat
  nb : Nat → Option Nat

/-- `build_graph` with explicit schedules (permutations of the edge list) for
the two atomic kernels. -/
def build_graph_sched (off0 : Nat → Nat) (hEdges sEdges : List Edge) (n : Nat) :
    Option BuiltGraph :=
  match scan_pipeline (histogram hEdges n off0) (n + 1) with
  | none => none
  | some off3 =>
    (store n sEdges.length sEdges ⟨create_scratch off3 n, fun _ => none⟩).map
      (fun st => ⟨off3, st.nb⟩)

/-- `build_graph` under the canonical in-order schedule; `off0` is the entry
content of the caller-allocated offsets array. -/
def build_graph (off0 : Nat → Nat) (edges : List Edge) (n : Nat) :
    Option BuiltGraph :=
  build_graph_sched off0 edges edges n

/-! ### observation helpers -/

/-- Number of input edges with source `v`. -/
def srcCount (edges : List Edge) (v : Nat) : Nat :=
  (edges.filter (fun e => e.1 = v)).length

/-- Destinations of the input edges with source `v`, in list order. -/
def dests (edges : List Edge) (v : Nat) : List Nat :=
  (edges.filter (fun e => e.1 = v)).map (fun e => e.2)

/-- Expected adjacency multiset of vertex `v` (entries wrapped in `some` to
compare against the `Option`-valued neighbours slots). -/
def destsM (edges : List Edge) (v : Nat) : Multiset (Option Nat) :=
  ((dests edges v).map some : List (Option Nat))

/-- Offsets entry `p` of a construction result. -/
def offsetsAt (r : Option BuiltGraph) (p : Nat) : Option Nat :=
  r.map (fun g => g.offsets p)

/-- Neighbours entry `q` of a construction result. -/
def nbAt (r : Option BuiltGraph) (q : Nat) : Option (Option Nat) :=
  r.map (fun g => g.nb q)

/-- The neighbours sub-range `[offsets v, offsets (v+1))` as a list. -/
def segListOf (g : BuiltGraph) (v : Nat) : List (Option Nat) :=
  (List.range (g.offsets (v + 1) - g.offsets v)).map
    (fun k => g.nb (g.offsets v + k))

/-- The neighbours sub-range `[offsets v, offsets (v+1))` as a multiset. -/
def segMultisetOf (r : Option BuiltGraph) (v : Nat) : Option (Multiset (Option Nat)) :=
  r.map (fun g => (segListOf g v : Multiset (Option Nat)))

/-- The offsets table produced by a zero-initialized run: exclusive prefix
sums of the out-degrees. -/
def zeroOffsets (edges : List Edge) (n : Nat) : Nat → Nat :=
  pipelineF (histogram edges n (fun _ => 0)) (n + 1)

/-! ### lock-step barrier structure of single_block_prefix_sum -/

/-- Events a unit of `single_block_prefix_sum` may execute: a
`__syncthreads()` barrier or a guarded piece of lane work. -/
inductive KEv where
  | sync : KEv
  | work : KEv

/-- Barrier recognizer. -/
def isSync : KEv → Bool
  | KEv.sync => true
  | KEv.work => false

/-- Lanes `d < n` with `d % 1024 = th_id` visited by thread `th_id` in the
load, copy and write-back loops (`for (data_idx = th_id; data_idx < n;
data_idx += 1024)`). -/
def lanes (n t : Nat) : List Nat :=
  (List.range n).filter (fun d => d % 1024 = t)

/-- Events of one iteration of the strided update loop (source lines
140-154): the two barriers sit outside the `my_lane < n && my_lane >= stride`
guard, the read and the write inside it. -/
def iterTrace (n stride t it : Nat) : List KEv :=
  (if t + 1024 * it < n ∧ stride ≤ t + 1024 * it then [KEv.work] else [])
    ++ [KEv.sync]
    ++ (if t + 1024 * it < n ∧ stride ≤ t + 1024 * it then [KEv.work] else [])
    ++ [KEv.sync]

/-- Events of one stride round: the scratch-copy loop, one barrier, then
exactly `max_number_items` iterations for every thread. -/
def strideTrace (n t stride : Nat) : List KEv :=
  (lanes n t).map (fun _ => KEv.work) ++ [KEv.sync]
    ++ (List.range (maxNumberItems n)).flatMap (iterTrace n stride t)

/-- Events executed by thread `t` of `single_block_prefix_sum`: the load
loop, one barrier (line 128), the stride rounds, the write-back loop. -/
def threadTrace (n t : Nat) : List KEv :=
  (lanes n t).map (fun _ => KEv.work) ++ [KEv.sync]
    ++ (strides n).flatMap (strideTrace n t)
    ++ (lanes n t).map (fun _ => KEv.work)

/-- Number of barrier rounds thread `t` executes. -/
def syncCount (n t : Nat) : Nat := (threadTrace n t).countP isSync

end A2

namespace A2

/-! ### histogram characterization -/

/-- Value of one offsets entry after the histogram stage: the entry value on
kernel entry plus the number of edges whose guarded increment targets it. -/
theorem histogram_apply (edges : List Edge) (n : Nat) (off : Nat → Nat) (p : Nat) :
    histogram edges n off p
      = off p + (edges.filter (fun e => decide (e.1 < n ∧ e.1 + 1 = p))).length := by
  induction edges generalizing off with
  | nil => simp [histogram]
  | cons e rest ih =>
    have h1 : histogram (e :: rest) n off = histogram rest n (histStep n off e) := rfl
    rw [h1, ih, List.filter_cons]
    by_cases he : e.1 < n
    · by_cases hp : e.1 + 1 = p
      · simp [histStep, he, hp, Function.update_apply]
        omega
      · have hne : p ≠ e.1 + 1 := fun h => hp h.symm
        simp [histStep, he, hp, Function.update_apply, hne]
    · simp [histStep, he]

/-- Entry 0 of the offsets array is untouched by the histogram stage. -/
theorem histogram_at_zero (edges : List Edge) (n : Nat) (off : Nat → Nat) :
    histogram edges n off 0 = off 0 := by
  rw [histogram_apply]
  have h : edges.filter (fun e => decide (e.1 < n ∧ e.1 + 1 = 0)) = [] := by
    apply List.filter_eq_nil_iff.mpr
    intro e _
    simp
  rw [h]
  simp

/-- Entry `v+1` (for `v < n`) gains exactly the out-degree of `v`. -/
theorem histogram_at_succ (edges : List Edge) (n : Nat) (off : Nat → Nat) (v : Nat)
    (hv : v < n) :
    histogram edges n off (v + 1) = off (v + 1) + srcCount edges v := by
  rw [histogram_apply]
  congr 1
  unfold srcCount
  congr 1
  apply List.filter_congr
  intro e _
  simp only [decide_eq_decide]
  constructor
  · rintro ⟨-, h2⟩; omega
  · intro h; exact ⟨by omega, by omega⟩

/-- The histogram result does not depend on the schedule in which the atomic
increments are performed. -/
theorem histogram_perm {edges1 edges2 : List Edge} (h : edges1.Perm edges2)
    (n : Nat) (off : Nat → Nat) : histogram edges1 n off = histogram edges2 n off := by
  funext p
  rw [histogram_apply, histogram_apply, (h.filter _).length_eq]

theorem srcCount_perm {l1 l2 : List Edge} (h : l1.Perm l2) (v : Nat) :
    srcCount l1 v = srcCount l2 v := (h.filter _).length_eq

theorem dests_perm {l1 l2 : List Edge} (h : l1.Perm l2) (v : Nat) :
    (dests l1 v).Perm (dests l2 v) := (h.filter _).map _

theorem srcCount_cons (e : Edge) (l : List Edge) (v : Nat) :
    srcCount (e :: l) v = srcCount l v + if e.1 = v then 1 else 0 := by
  simp only [srcCount, List.filter_cons]
  by_cases hev : e.1 = v <;> simp [hev]

theorem dests_cons (e : Edge) (l : List Edge) (v : Nat) :
    dests (e :: l) v = (if e.1 = v then [e.2] else []) ++ dests l v := by
  simp only [dests, List.filter_cons]
  by_cases hev : e.1 = v <;> simp [hev]

theorem length_dests (l : List Edge) (v : Nat) : (dests l v).length = srcCount l v := by
  simp [dests, srcCount]

/-- With every source in range, the out-degrees sum to the edge count. -/
theorem sum_srcCount (edges : List Edge) (n : Nat) (h : ∀ e ∈ edges, e.1 < n) :
    ∑ v in Finset.range n, srcCount edges v = edges.length := by
  induction edges with
  | nil => simp [srcCount]
  | cons e rest ih =>
    have hrest : ∀ e' ∈ rest, e'.1 < n := fun e' he' => h e' (List.mem_cons_of_mem _ he')
    simp only [srcCount_cons]
    rw [Finset.sum_add_distrib, ih hrest, Finset.sum_ite_eq]
    have he : e.1 ∈ Finset.range n := Finset.mem_range.mpr (h e (List.mem_cons_self _ _))
    simp [he]

end A2

namespace A2

/-! ### doubling-stride scan correctness -/

/-- One scan round doubles the summation window of every in-range lane. -/
theorem scanStep_window (bound s : Nat) (hs : 1 ≤ s) (f f0 : Nat → Nat)
    (hw : ∀ l, l < bound → f l = ∑ i in Finset.Ico (l + 1 - s) (l + 1), f0 i) :
    ∀ l, l < bound →
      scanStep bound s f l = ∑ i in Finset.Ico (l + 1 - 2 * s) (l + 1), f0 i := by
  intro l hl
  unfold scanStep
  by_cases hsl : s ≤ l
  · rw [if_pos ⟨hsl, hl⟩, hw l hl, hw (l - s) (lt_of_le_of_lt (Nat.sub_le _ _) hl)]
    have h1 : l - s + 1 - s = l + 1 - 2 * s := by omega
    have h2 : l - s + 1 = l + 1 - s := by omega
    rw [h1, h2, add_comm]
    exact Finset.sum_Ico_consecutive _ (by omega) (by omega)
  · rw [if_neg (by tauto), hw l hl]
    have h3 : l + 1 - s = l + 1 - 2 * s := by omega
    rw [h3]

/-- Completing the stride loop from stride `s` turns an `s`-window invariant
into full inclusive prefix sums, provided the fuel allows the stride to reach
`bound`. -/
theorem scanGo_sum (bound : Nat) (f0 : Nat → Nat) :
    ∀ (fuel s : Nat) (f : Nat → Nat), 1 ≤ s → bound ≤ 2 ^ fuel * s →
    (∀ l, l < bound → f l = ∑ i in Finset.Ico (l + 1 - s) (l + 1), f0 i) →
    ∀ l, l < bound →
      ((stridesGo bound fuel s).foldl (fun g st => scanStep bound st g) f) l
        = ∑ i in Finset.range (l + 1), f0 i := by
  intro fuel
  induction fuel with
  | zero =>
    intro s f hs hb hw l hl
    simp only [stridesGo, List.foldl_nil]
    rw [hw l hl, Finset.range_eq_Ico]
    simp only [pow_zero, one_mul] at hb
    have h3 : l + 1 - s = 0 := by omega
    rw [h3]
  | succ fuel ih =>
    intro s f hs hb hw l hl
    by_cases hlt : s < bound
    · simp only [stridesGo, if_pos hlt, List.foldl_cons]
      refine ih (2 * s) (scanStep bound s f) (by omega) ?_ ?_ l hl
      · calc bound ≤ 2 ^ (fuel + 1) * s := hb
          _ = 2 ^ fuel * (2 * s) := by ring
      · exact scanStep_window bound s hs f f0 hw
    · simp only [stridesGo, if_neg hlt, List.foldl_nil]
      rw [hw l hl, Finset.range_eq_Ico]
      have h3 : l + 1 - s = 0 := by omega
      rw [h3]

/-- The complete scan loop computes inclusive prefix sums on `[0, bound)`. -/
theorem hsScan_eq (bound : Nat) (f : Nat → Nat) (l : Nat) (hl : l < bound) :
    hsScan bound f l = ∑ i in Finset.range (l + 1), f i := by
  unfold hsScan strides
  refine scanGo_sum bound f bound 1 f le_rfl ?_ ?_ l hl
  · have := Nat.lt_two_pow bound
    omega
  · intro l hl
    rw [Nat.add_sub_cancel, Nat.Ico_succ_singleton, Finset.sum_singleton]

end A2

namespace A2

/-! ### prefix_sum / block sums / pipeline characterization -/

/-- Written-back value of the block-local scan: the inclusive sum from the
start of the position's block.  The wraparound loads `(1024*b + t) % N` of a
block only sit at lanes past the block's last in-range position, so they do
not reach any written-back lane. -/
theorem prefix_sum_char (off : Nat → Nat) (N p : Nat) (hp : p < N) :
    prefix_sum off N p = ∑ i in Finset.Ico (1024 * (p / 1024)) (p + 1), off i := by
  unfold prefix_sum
  rw [if_pos hp]
  unfold blockScan
  rw [hsScan_eq 1024 _ _ (Nat.mod_lt p (by norm_num))]
  rw [Finset.sum_Ico_eq_sum_range]
  have hcnt : p + 1 - 1024 * (p / 1024) = p % 1024 + 1 := by omega
  rw [hcnt]
  apply Finset.sum_congr rfl
  intro j hj
  simp only [Finset.mem_range] at hj
  unfold blockLoad
  rw [Nat.mod_eq_of_lt (by omega)]

/-- The `block_sums` entry of block `b` is the total of block `b`'s in-range
offsets. -/
theorem blockSums_char (off : Nat → Nat) (N b : Nat) (hb : 1024 * b < N) :
    blockSums off N b
      = ∑ i in Finset.Ico (1024 * b) (min N (1024 * b + 1024)), off i := by
  unfold blockSums blockScan
  rw [hsScan_eq 1024 _ _ (show lastLane N b < 1024 by unfold lastLane; omega)]
  rw [Finset.sum_Ico_eq_sum_range]
  have hcnt : min N (1024 * b + 1024) - 1024 * b = lastLane N b + 1 := by
    unfold lastLane
    omega
  rw [hcnt]
  apply Finset.sum_congr rfl
  intro j hj
  simp only [Finset.mem_range] at hj
  unfold blockLoad
  unfold lastLane at hj
  rw [Nat.mod_eq_of_lt (by omega)]

/-- Prefix sums of the per-block totals give sums of whole-block ranges. -/
theorem sum_blockSums (off : Nat → Nat) (N : Nat) :
    ∀ b, b < numBlocks N →
      ∑ i in Finset.range (b + 1), blockSums off N i
        = ∑ i in Finset.range (min N (1024 * b + 1024)), off i := by
  intro b
  induction b with
  | zero =>
    intro hb
    have hN : 0 < N := by
      unfold numBlocks at hb
      omega
    rw [Finset.sum_range_one, blockSums_char off N 0 (by omega)]
    rw [Finset.range_eq_Ico]
  | succ b ih =>
    intro hb
    have hb2 : b < numBlocks N := by omega
    have hlt : 1024 * (b + 1) < N := by
      unfold numBlocks at hb
      omega
    rw [Finset.sum_range_succ, ih hb2, blockSums_char off N (b + 1) hlt]
    have hmin : min N (1024 * b + 1024) = 1024 * (b + 1) := by
      unfold numBlocks at hb
      omega
    rw [hmin, Finset.range_eq_Ico]
    exact Finset.sum_Ico_consecutive off (by omega) (by omega)

/-- After all three scan stages, every position `p < N` of the offsets array
holds the global inclusive prefix sum of the stage input. -/
theorem pipelineF_char (off : Nat → Nat) (N p : Nat) (hp : p < N) :
    pipelineF off N p = ∑ i in Finset.range (p + 1), off i := by
  unfold pipelineF finish_prefix_sum
  by_cases hb : 0 < p / 1024
  · rw [if_pos ⟨hp, hb⟩]
    have hbp : p / 1024 - 1 < numBlocks N := by
      unfold numBlocks
      omega
    rw [hsScan_eq (numBlocks N) (blockSums off N) (p / 1024 - 1) hbp]
    rw [sum_blockSums off N (p / 1024 - 1) hbp]
    rw [prefix_sum_char off N p hp]
    have hmin : min N (1024 * (p / 1024 - 1) + 1024) = 1024 * (p / 1024) := by
      omega
    rw [hmin, Finset.range_eq_Ico, add_comm]
    exact Finset.sum_Ico_consecutive off (by omega) (by omega)
  · rw [if_neg (by tauto)]
    rw [prefix_sum_char off N p hp]
    have h0 : p / 1024 = 0 := by omega
    rw [h0, Finset.range_eq_Ico]

/-- With the block count within the 6144-element shared-memory budget, the
scan stages complete and produce `pipelineF`. -/
theorem scan_pipeline_some (off : Nat → Nat) (N : Nat)
    (hcap : numBlocks N ≤ 6144) :
    scan_pipeline off N = some (pipelineF off N) := by
  unfold scan_pipeline single_block_prefix_sum pipelineF
  rw [if_neg (by omega)]

/-- With the block count beyond the budget, the group-reduce kernel overruns
its shared buffers. -/
theorem scan_pipeline_none (off : Nat → Nat) (N : Nat)
    (hcap : 6144 < numBlocks N) :
    scan_pipeline off N = none := by
  unfold scan_pipeline single_block_prefix_sum
  rw [if_pos hcap]

end A2

namespace A2

/-! ### store (scatter) characterization -/

/-- A store run faults (hits an out-of-bounds access) exactly when the
schedule contains an edge with out-of-range source, or some vertex's claims
run past the end of the `m`-element neighbours array.  The condition does not
mention the schedule order, only the multiset of edges. -/
theorem store_none_iff (n m : Nat) :
    ∀ (edges : List Edge) (c : Nat → Nat) (nb : Nat → Option Nat),
      store n m edges ⟨c, nb⟩ = none ↔
        ((∃ e ∈ edges, n ≤ e.1) ∨
          ∃ v, v < n ∧ 0 < srcCount edges v ∧ m < c v + srcCount edges v) := by
  intro edges
  induction edges with
  | nil =>
    intro c nb
    simp [store, srcCount]
  | cons e rest ih =>
    intro c nb
    by_cases hs : e.1 < n
    · by_cases hpos : c e.1 < m
      · have hstep : store n m (e :: rest) ⟨c, nb⟩
            = store n m rest ⟨Function.update c e.1 (c e.1 + 1),
                              Function.update nb (c e.1) (some e.2)⟩ := by
          simp [store, storeStep, hs, hpos]
        rw [hstep, ih]
        constructor
        · rintro (⟨a, ha, hna⟩ | ⟨v, hv, hcnt, hm⟩)
          · exact Or.inl ⟨a, List.mem_cons_of_mem _ ha, hna⟩
          · refine Or.inr ⟨v, hv, ?_, ?_⟩
            · rw [srcCount_cons]
              omega
            · rw [srcCount_cons]
              by_cases hev : e.1 = v
              · have hupd : Function.update c e.1 (c e.1 + 1) v = c e.1 + 1 := by
                  rw [← hev]
                  exact Function.update_same _ _ _
                have hcv : c v = c e.1 := by rw [← hev]
                rw [hupd] at hm
                rw [if_pos hev]
                omega
              · have hupd : Function.update c e.1 (c e.1 + 1) v = c v :=
                  Function.update_noteq (fun h => hev h.symm) _ _
                rw [hupd] at hm
                rw [if_neg hev]
                omega
        · rintro (⟨a, ha, hna⟩ | ⟨v, hv, hcnt, hm⟩)
          · rcases List.mem_cons.mp ha with h1 | h2
            · exact absurd (h1 ▸ hna) (Nat.not_le.mpr hs)
            · exact Or.inl ⟨a, h2, hna⟩
          · rw [srcCount_cons] at hcnt hm
            by_cases hev : e.1 = v
            · rw [if_pos hev] at hcnt hm
              have hcv : c v = c e.1 := by rw [← hev]
              by_cases hz : srcCount rest v = 0
              · exfalso
                omega
              · refine Or.inr ⟨v, hv, by omega, ?_⟩
                have hupd : Function.update c e.1 (c e.1 + 1) v = c e.1 + 1 := by
                  rw [← hev]
                  exact Function.update_same _ _ _
                rw [hupd]
                omega
            · rw [if_neg hev] at hcnt hm
              refine Or.inr ⟨v, hv, by omega, ?_⟩
              have hupd : Function.update c e.1 (c e.1 + 1) v = c v :=
                Function.update_noteq (fun h => hev h.symm) _ _
              rw [hupd]
              omega
      · have hnone : store n m (e :: rest) ⟨c, nb⟩ = none := by
          simp [store, storeStep, hs, hpos]
        rw [hnone]
        constructor
        · intro _
          refine Or.inr ⟨e.1, hs, ?_, ?_⟩ <;> (rw [srcCount_cons, if_pos rfl]; omega)
        · intro _
          rfl
    · have hnone : store n m (e :: rest) ⟨c, nb⟩ = none := by
        simp [store, storeStep, hs]
      rw [hnone]
      constructor
      · intro _
        exact Or.inl ⟨e, List.mem_cons_self _ _, Nat.le_of_not_lt hs⟩
      · intro _
        rfl

end A2

namespace A2

/-- Characterization of a successful store run with disjoint per-vertex claim
ranges: each vertex's claims fill `[c v, c v + deg v)` with its destinations
in schedule order, and every position outside all claim ranges keeps its entry
value. -/
theorem store_char (n m : Nat) :
    ∀ (edges : List Edge) (c : Nat → Nat) (nb : Nat → Option Nat),
      (∀ e ∈ edges, e.1 < n) →
      (∀ v, v < n → 0 < srcCount edges v → c v + srcCount edges v ≤ m) →
      (∀ u v, u < v → v < n → c u + srcCount edges u ≤ c v) →
      ∃ st, store n m edges ⟨c, nb⟩ = some st ∧
        (∀ v k, v < n → k < srcCount edges v →
          st.nb (c v + k) = (dests edges v)[k]?) ∧
        (∀ p, (∀ v, v < n → p < c v ∨ c v + srcCount edges v ≤ p) →
          st.nb p = nb p) := by
  intro edges
  induction edges with
  | nil =>
    intro c nb _ _ _
    refine ⟨⟨c, nb⟩, rfl, ?_, ?_⟩
    · intro v k _ hk
      simp [srcCount] at hk
    · intro p _
      rfl
  | cons e rest ih =>
    intro c nb hsrc hbnd hdisj
    have hs : e.1 < n := hsrc e (List.mem_cons_self _ _)
    have hcnte : srcCount (e :: rest) e.1 = srcCount rest e.1 + 1 := by
      rw [srcCount_cons, if_pos rfl]
    have hpos : c e.1 < m := by
      have := hbnd e.1 hs (by omega)
      omega
    have hstep : store n m (e :: rest) ⟨c, nb⟩
        = store n m rest ⟨Function.update c e.1 (c e.1 + 1),
                          Function.update nb (c e.1) (some e.2)⟩ := by
      simp [store, storeStep, hs, hpos]
    have hup_self : Function.update c e.1 (c e.1 + 1) e.1 = c e.1 + 1 :=
      Function.update_same _ _ _
    have hup_other : ∀ v, v ≠ e.1 → Function.update c e.1 (c e.1 + 1) v = c v :=
      fun v hv => Function.update_noteq hv _ _
    have hcnt_other : ∀ v, v ≠ e.1 → srcCount (e :: rest) v = srcCount rest v := by
      intro v hv
      rw [srcCount_cons, if_neg (fun h => hv h.symm)]
      omega
    -- hypotheses of the induction for the state after processing `e`
    have hsrc2 : ∀ a ∈ rest, a.1 < n := fun a ha => hsrc a (List.mem_cons_of_mem _ ha)
    have hbnd2 : ∀ v, v < n → 0 < srcCount rest v →
        Function.update c e.1 (c e.1 + 1) v + srcCount rest v ≤ m := by
      intro v hv hc
      by_cases hev : v = e.1
      · subst hev
        rw [hup_self]
        have h1 := hbnd e.1 hv (by omega)
        rw [hcnte] at h1
        omega
      · rw [hup_other v hev]
        have h1 := hbnd v hv (by rw [hcnt_other v hev]; omega)
        rw [hcnt_other v hev] at h1
        omega
    have hdisj2 : ∀ u v, u < v → v < n →
        Function.update c e.1 (c e.1 + 1) u + srcCount rest u
          ≤ Function.update c e.1 (c e.1 + 1) v := by
      intro u v huv hv
      by_cases hue : u = e.1
      · subst hue
        rw [hup_self, hup_other v (by omega)]
        have h1 := hdisj e.1 v huv hv
        rw [hcnte] at h1
        omega
      · rw [hup_other u hue]
        by_cases hve : v = e.1
        · subst hve
          rw [hup_self]
          have h1 := hdisj u e.1 huv hv
          rw [hcnt_other u hue] at h1
          omega
        · rw [hup_other v hve]
          have h1 := hdisj u v huv hv
          rw [hcnt_other u hue] at h1
          omega
    obtain ⟨st, hst, hseg, hout⟩ :=
      ih (Function.update c e.1 (c e.1 + 1)) (Function.update nb (c e.1) (some e.2))
        hsrc2 hbnd2 hdisj2
    refine ⟨st, by rw [hstep]; exact hst, ?_, ?_⟩
    · -- the segment conclusion
      intro v k hv hk
      by_cases hev : v = e.1
      · subst hev
        rw [dests_cons, if_pos rfl]
        match k with
        | 0 =>
          have hmiss : ∀ u, u < n →
              c e.1 < Function.update c e.1 (c e.1 + 1) u ∨
              Function.update c e.1 (c e.1 + 1) u + srcCount rest u ≤ c e.1 := by
            intro u hu
            by_cases hue : u = e.1
            · left
              rw [hue, hup_self]
              omega
            · rw [hup_other u hue]
              rcases Nat.lt_or_ge u e.1 with h1 | h1
              · right
                have h2 := hdisj u e.1 h1 hv
                rw [hcnt_other u hue] at h2
                omega
              · left
                have hlt : e.1 < u := by omega
                have h2 := hdisj e.1 u hlt hu
                rw [hcnte] at h2
                omega
          have h0 : st.nb (c e.1 + 0) = Function.update nb (c e.1) (some e.2) (c e.1) := by
            have h3 := hout (c e.1) hmiss
            simpa using h3
          rw [h0, Function.update_same]
          simp
        | k + 1 =>
          have hk2 : k < srcCount rest e.1 := by
            rw [hcnte] at hk
            omega
          have h3 := hseg e.1 k hv hk2
          rw [hup_self] at h3
          have harith : c e.1 + (k + 1) = c e.1 + 1 + k := by omega
          rw [harith, h3]
          simp
      · rw [dests_cons, if_neg (fun h => hev h.symm), List.nil_append]
        have hk2 : k < srcCount rest v := by
          rw [hcnt_other v hev] at hk
          exact hk
        have := hseg v k hv hk2
        rw [hup_other v hev] at this
        exact this
    · -- the frame conclusion
      intro p hp
      have hrest : ∀ v, v < n →
          p < Function.update c e.1 (c e.1 + 1) v ∨
          Function.update c e.1 (c e.1 + 1) v + srcCount rest v ≤ p := by
        intro v hv
        by_cases hev : v = e.1
        · subst hev
          rw [hup_self]
          rcases hp e.1 hv with h | h
          · left
            omega
          · right
            rw [hcnte] at h
            omega
        · rw [hup_other v hev]
          rcases hp v hv with h | h
          · exact Or.inl h
          · right
            rw [hcnt_other v hev] at h
            exact h
      have hpne : p ≠ c e.1 := by
        rcases hp e.1 hs with h | h
        · omega
        · rw [hcnte] at h
          omega
      rw [hout p hrest, Function.update_noteq hpne]

end A2

namespace A2

/-- Contents of a final adjacency segment delimited by a monotone offsets
table whose counters seeded the scatter: the destinations of the segment's
vertex in schedule order, then untouched (`none`) padding. -/
theorem store_segList (n m : Nat) (off3 : Nat → Nat) (s : List Edge)
    (st : StoreState)
    (hsrc : ∀ e ∈ s, e.1 < n)
    (hbnd : ∀ v, v < n → 0 < srcCount s v → off3 v + srcCount s v ≤ m)
    (hstepb : ∀ v, v < n → off3 v + srcCount s v ≤ off3 (v + 1))
    (hmono : ∀ u v, u ≤ v → v ≤ n → off3 u ≤ off3 v)
    (hsome : store n m s ⟨create_scratch off3 n, fun _ => none⟩ = some st) :
    ∀ v, v < n →
      (List.range (off3 (v + 1) - off3 v)).map (fun k => st.nb (off3 v + k))
        = (dests s v).map some
          ++ List.replicate (off3 (v + 1) - off3 v - srcCount s v)
              (none : Option Nat) := by
  have hc : ∀ v, v < n → create_scratch off3 n v = off3 v := by
    intro v hv
    unfold create_scratch
    rw [if_pos hv]
  obtain ⟨st2, hst2, hseg, hout⟩ :=
    store_char n m s (create_scratch off3 n) (fun _ => none) hsrc
      (by
        intro v hv hcnt
        rw [hc v hv]
        exact hbnd v hv hcnt)
      (by
        intro u v huv hv
        rw [hc u (by omega), hc v hv]
        have h1 := hstepb u (by omega)
        have h2 := hmono (u + 1) v (by omega) (by omega)
        omega)
  rw [hst2] at hsome
  have hst : st2 = st := Option.some.inj hsome
  intro v hv
  rw [← hst]
  have hwidth := hstepb v hv
  apply List.ext_getElem
  · simp only [List.length_map, List.length_range, List.length_append,
      List.length_replicate, length_dests]
    omega
  · intro i h1 h2
    simp only [List.length_map, List.length_range] at h1
    simp only [List.getElem_map, List.getElem_range]
    by_cases hi : i < srcCount s v
    · have h3 := hseg v i hv hi
      rw [hc v hv] at h3
      rw [h3]
      rw [List.getElem_append_left (by simp [length_dests]; exact hi)]
      rw [List.getElem_map]
      rw [List.getElem?_eq_getElem (by rw [length_dests]; exact hi)]
    · have hnone : st2.nb (off3 v + i) = none := by
        have h4 := hout (off3 v + i) (by
          intro u hu
          rw [hc u hu]
          rcases Nat.lt_or_ge v u with huv | huv
          · left
            have h5 := hmono (v + 1) u huv hu.le
            omega
          · right
            rcases Nat.eq_or_lt_of_le huv with h6 | h6
            · subst h6
              omega
            · have h7 := hstepb u (by omega)
              have h8 := hmono (u + 1) v h6 (by omega)
              omega)
        simpa using h4
      rw [hnone]
      rw [List.getElem_append_right (by simp [length_dests]; omega)]
      simp [List.getElem_replicate]

/-- With a zero-initialized offsets array, the offsets table after the scan
stages is the exclusive prefix sum of the out-degrees. -/
theorem zero_off3_eq (edges : List Edge) (n : Nat) (p : Nat) (hp : p ≤ n) :
    pipelineF (histogram edges n (fun _ => 0)) (n + 1) p
      = ∑ v in Finset.range p, srcCount edges v := by
  rw [pipelineF_char _ _ _ (by omega)]
  rw [Finset.sum_range_succ']
  rw [histogram_at_zero]
  rw [Nat.add_zero]
  apply Finset.sum_congr rfl
  intro i hi
  simp only [Finset.mem_range] at hi
  rw [histogram_at_succ edges n _ i (by omega)]
  simp

end A2

namespace A2

theorem zeroOffsets_eq (edges : List Edge) (n p : Nat) (hp : p ≤ n) :
    zeroOffsets edges n p = ∑ v in Finset.range p, srcCount edges v :=
  zero_off3_eq edges n p hp

theorem zeroOffsets_step (edges : List Edge) (n v : Nat) (hv : v < n) :
    zeroOffsets edges n v + srcCount edges v = zeroOffsets edges n (v + 1) := by
  rw [zeroOffsets_eq edges n v (by omega), zeroOffsets_eq edges n (v + 1) (by omega),
    Finset.sum_range_succ]

theorem zeroOffsets_mono (edges : List Edge) (n u v : Nat) (huv : u ≤ v)
    (hvn : v ≤ n) : zeroOffsets edges n u ≤ zeroOffsets edges n v := by
  rw [zeroOffsets_eq edges n u (by omega), zeroOffsets_eq edges n v hvn]
  exact Finset.sum_le_sum_of_subset (Finset.range_subset.mpr huv)

theorem zeroOffsets_bound (edges : List Edge) (n : Nat)
    (hsrc : ∀ e ∈ edges, e.1 < n) (v : Nat) (hv : v < n) :
    zeroOffsets edges n v + srcCount edges v ≤ edges.length := by
  rw [zeroOffsets_step edges n v hv]
  calc zeroOffsets edges n (v + 1) ≤ zeroOffsets edges n n :=
        zeroOffsets_mono edges n (v + 1) n hv le_rfl
    _ = edges.length := by rw [zeroOffsets_eq edges n n le_rfl, sum_srcCount edges n hsrc]

/-- A zero-initialized run with in-range sources and an in-budget block count
completes, with `zeroOffsets` as its offsets table. -/
theorem build_graph_zero (edges : List Edge) (n : Nat)
    (hsrc : ∀ e ∈ edges, e.1 < n)
    (hcap : numBlocks (n + 1) ≤ 6144) :
    ∃ st, build_graph (fun _ => 0) edges n = some ⟨zeroOffsets edges n, st.nb⟩
      ∧ store n edges.length edges
          ⟨create_scratch (zeroOffsets edges n) n, fun _ => none⟩ = some st := by
  have hnone : store n edges.length edges
      ⟨create_scratch (zeroOffsets edges n) n, fun _ => none⟩ ≠ none := by
    intro h
    rw [store_none_iff] at h
    rcases h with ⟨e, he, hn⟩ | ⟨v, hv, hcnt, hm2⟩
    · have := hsrc e he
      omega
    · have hb := zeroOffsets_bound edges n hsrc v hv
      unfold create_scratch at hm2
      rw [if_pos hv] at hm2
      omega
  obtain ⟨st, hst⟩ := Option.ne_none_iff_exists'.mp hnone
  refine ⟨st, ?_, hst⟩
  unfold build_graph build_graph_sched
  rw [scan_pipeline_some _ _ hcap]
  show (store n edges.length edges
      ⟨create_scratch (pipelineF (histogram edges n (fun _ => 0)) (n + 1)) n,
       fun _ => none⟩).map _ = _
  rw [show pipelineF (histogram edges n (fun _ => 0)) (n + 1) = zeroOffsets edges n from rfl]
  rw [hst]
  rfl

end A2

namespace A2

theorem countP_work_map {α : Type} (l : List α) :
    (l.map (fun _ => KEv.work)).countP isSync = 0 := by
  induction l with
  | nil => rfl
  | cons a l ih => simp [List.countP_cons, isSync, ih]

theorem iterTrace_syncs (n stride t it : Nat) :
    (iterTrace n stride t it).countP isSync = 2 := by
  unfold iterTrace
  by_cases h : t + 1024 * it < n ∧ stride ≤ t + 1024 * it <;>
    simp [h, List.countP_append, List.countP_cons, isSync]

theorem strideTrace_syncs (n t stride : Nat) :
    (strideTrace n t stride).countP isSync = 1 + 2 * maxNumberItems n := by
  have hbind : ∀ l : List Nat,
      ((l.flatMap (iterTrace n stride t)).countP isSync) = 2 * l.length := by
    intro l
    induction l with
    | nil => simp
    | cons a l ih =>
      rw [List.flatMap_cons, List.countP_append, iterTrace_syncs, ih]
      simp only [List.length_cons]
      ring
  unfold strideTrace
  simp only [List.countP_append, countP_work_map, hbind, List.length_range]
  have hone : List.countP isSync [KEv.sync] = 1 := rfl
  rw [hone]

theorem threadTrace_syncs (n t : Nat) :
    syncCount n t = 1 + (strides n).length * (1 + 2 * maxNumberItems n) := by
  have hbind : ∀ l : List Nat,
      ((l.flatMap (strideTrace n t)).countP isSync)
        = l.length * (1 + 2 * maxNumberItems n) := by
    intro l
    induction l with
    | nil => simp
    | cons a l ih =>
      rw [List.flatMap_cons, List.countP_append, strideTrace_syncs, ih]
      simp only [List.length_cons]
      ring
  unfold syncCount threadTrace
  simp only [List.countP_append, countP_work_map, hbind]
  have hone : List.countP isSync [KEv.sync] = 1 := rfl
  rw [hone]
  ring

end A2

namespace A2

/-- The offsets table grows by at least the out-degree at each vertex, for any
entry contents of the offsets array. -/
theorem pipelineF_step (off0 : Nat → Nat) (edges : List Edge) (n v : Nat)
    (hv : v < n) :
    pipelineF (histogram edges n off0) (n + 1) v + srcCount edges v
      ≤ pipelineF (histogram edges n off0) (n + 1) (v + 1) := by
  rw [pipelineF_char _ _ _ (by omega), pipelineF_char _ _ _ (by omega)]
  conv_rhs => rw [Finset.sum_range_succ]
  rw [histogram_at_succ edges n off0 v hv]
  omega

/-- The offsets table after the scan stages is monotone, for any entry
contents of the offsets array. -/
theorem pipelineF_mono (off0 : Nat → Nat) (edges : List Edge) (n u v : Nat)
    (huv : u ≤ v) (hv : v ≤ n) :
    pipelineF (histogram edges n off0) (n + 1) u
      ≤ pipelineF (histogram edges n off0) (n + 1) v := by
  rw [pipelineF_char _ _ _ (by omega), pipelineF_char _ _ _ (by omega)]
  exact Finset.sum_le_sum_of_subset (Finset.range_subset.mpr (by omega))

/-- The store abort condition depends only on the multiset of scheduled
edges. -/
theorem store_none_iff_canonical (n : Nat) (off3 : Nat → Nat)
    (s edges : List Edge) (hp : s.Perm edges) :
    (store n s.length s ⟨create_scratch off3 n, fun _ => none⟩ = none)
      ↔ ((∃ e ∈ edges, n ≤ e.1) ∨
          ∃ v, v < n ∧ 0 < srcCount edges v
            ∧ edges.length < create_scratch off3 n v + srcCount edges v) := by
  rw [store_none_iff, hp.length_eq]
  constructor
  · rintro (⟨e, he, hn⟩ | ⟨v, hv, hc, hm⟩)
    · exact Or.inl ⟨e, hp.subset he, hn⟩
    · rw [srcCount_perm hp v] at hc hm
      exact Or.inr ⟨v, hv, hc, hm⟩
  · rintro (⟨e, he, hn⟩ | ⟨v, hv, hc, hm⟩)
    · exact Or.inl ⟨e, hp.symm.subset he, hn⟩
    · rw [← srcCount_perm hp v] at hc hm
      exact Or.inr ⟨v, hv, hc, hm⟩

/-- Segment contents of any completed scheduled run: the schedule's
destinations for the vertex, then `none` padding whose width depends only on
the canonical edge list. -/
theorem sched_segList (off0 : Nat → Nat) (edges s : List Edge) (n : Nat)
    (hp : s.Perm edges) (st : StoreState)
    (hst : store n s.length s
        ⟨create_scratch (pipelineF (histogram edges n off0) (n + 1)) n,
         fun _ => none⟩ = some st) :
    ∀ v, v < n →
      (List.range (pipelineF (histogram edges n off0) (n + 1) (v + 1)
          - pipelineF (histogram edges n off0) (n + 1) v)).map
        (fun k => st.nb (pipelineF (histogram edges n off0) (n + 1) v + k))
        = (dests s v).map some
          ++ List.replicate
              (pipelineF (histogram edges n off0) (n + 1) (v + 1)
                - pipelineF (histogram edges n off0) (n + 1) v
                - srcCount edges v)
              (none : Option Nat) := by
  have hcond := store_none_iff_canonical n
    (pipelineF (histogram edges n off0) (n + 1)) s edges hp
  have hnot : ¬ ((∃ e ∈ edges, n ≤ e.1) ∨
      ∃ v, v < n ∧ 0 < srcCount edges v
        ∧ edges.length
            < create_scratch (pipelineF (histogram edges n off0) (n + 1)) n v
              + srcCount edges v) := by
    intro h
    rw [hcond.mpr h] at hst
    exact Option.noConfusion hst
  have hsrc : ∀ e ∈ s, e.1 < n := by
    intro e he
    by_contra hcontra
    exact hnot (Or.inl ⟨e, hp.subset he, Nat.le_of_not_lt hcontra⟩)
  have hbnd : ∀ v, v < n → 0 < srcCount s v →
      pipelineF (histogram edges n off0) (n + 1) v + srcCount s v ≤ s.length := by
    intro v hv hc
    rw [srcCount_perm hp v] at hc ⊢
    rw [hp.length_eq]
    by_contra hcontra
    apply hnot
    refine Or.inr ⟨v, hv, hc, ?_⟩
    unfold create_scratch
    rw [if_pos hv]
    omega
  have hstepb : ∀ v, v < n →
      pipelineF (histogram edges n off0) (n + 1) v + srcCount s v
        ≤ pipelineF (histogram edges n off0) (n + 1) (v + 1) := by
    intro v hv
    rw [srcCount_perm hp v]
    exact pipelineF_step off0 edges n v hv
  have hmono : ∀ u v, u ≤ v → v ≤ n →
      pipelineF (histogram edges n off0) (n + 1) u
        ≤ pipelineF (histogram edges n off0) (n + 1) v :=
    fun u v hh1 hh2 => pipelineF_mono off0 edges n u v hh1 hh2
  have hres := store_segList n s.length
    (pipelineF (histogram edges n off0) (n + 1)) s st hsrc hbnd hstepb hmono hst
  intro v hv
  rw [hres v hv, srcCount_perm hp v]

end A2

namespace A2

/-- C7: for every fixed input, any two runs of the construction (modelled as
arbitrary schedules of the two atomic kernels) produce the same completion
status, identical offsets values, and per-vertex neighbours segments that are
equal as multisets. -/
theorem C7_schedule_independence (off0 : Nat → Nat)
    (edges h1 s1 h2 s2 : List Edge) (n : Nat)
    (hh1 : h1.Perm edges) (hs1 : s1.Perm edges)
    (hh2 : h2.Perm edges) (hs2 : s2.Perm edges) :
    (build_graph_sched off0 h1 s1 n).isSome
        = (build_graph_sched off0 h2 s2 n).isSome
    ∧ (∀ p, offsetsAt (build_graph_sched off0 h1 s1 n) p
          = offsetsAt (build_graph_sched off0 h2 s2 n) p)
    ∧ (∀ v, v < n → segMultisetOf (build_graph_sched off0 h1 s1 n) v
          = segMultisetOf (build_graph_sched off0 h2 s2 n) v) := by
  by_cases hcap : numBlocks (n + 1) ≤ 6144
  · have hbg1 : build_graph_sched off0 h1 s1 n
        = (store n s1.length s1
            ⟨create_scratch (pipelineF (histogram edges n off0) (n + 1)) n,
             fun _ => none⟩).map
            (fun st => ⟨pipelineF (histogram edges n off0) (n + 1), st.nb⟩) := by
      unfold build_graph_sched
      rw [histogram_perm hh1 n off0, scan_pipeline_some _ _ hcap]
    have hbg2 : build_graph_sched off0 h2 s2 n
        = (store n s2.length s2
            ⟨create_scratch (pipelineF (histogram edges n off0) (n + 1)) n,
             fun _ => none⟩).map
            (fun st => ⟨pipelineF (histogram edges n off0) (n + 1), st.nb⟩) := by
      unfold build_graph_sched
      rw [histogram_perm hh2 n off0, scan_pipeline_some _ _ hcap]
    have hcond1 := store_none_iff_canonical n
      (pipelineF (histogram edges n off0) (n + 1)) s1 edges hs1
    have hcond2 := store_none_iff_canonical n
      (pipelineF (histogram edges n off0) (n + 1)) s2 edges hs2
    by_cases habort : store n s1.length s1
        ⟨create_scratch (pipelineF (histogram edges n off0) (n + 1)) n,
         fun _ => none⟩ = none
    · have habort2 : store n s2.length s2
          ⟨create_scratch (pipelineF (histogram edges n off0) (n + 1)) n,
           fun _ => none⟩ = none := hcond2.mpr (hcond1.mp habort)
      rw [hbg1, hbg2, habort, habort2]
      exact ⟨rfl, fun p => rfl, fun v _ => rfl⟩
    · have habort2 : store n s2.length s2
          ⟨create_scratch (pipelineF (histogram edges n off0) (n + 1)) n,
           fun _ => none⟩ ≠ none := fun h => habort (hcond1.mpr (hcond2.mp h))
      obtain ⟨st1, hst1⟩ := Option.ne_none_iff_exists'.mp habort
      obtain ⟨st2, hst2⟩ := Option.ne_none_iff_exists'.mp habort2
      rw [hbg1, hbg2, hst1, hst2]
      refine ⟨rfl, fun p => rfl, ?_⟩
      intro v hv
      have hl1 := sched_segList off0 edges s1 n hs1 st1 hst1 v hv
      have hl2 := sched_segList off0 edges s2 n hs2 st2 hst2 v hv
      show some ((segListOf
            ⟨pipelineF (histogram edges n off0) (n + 1), st1.nb⟩ v
          : Multiset (Option Nat)))
        = some ((segListOf
            ⟨pipelineF (histogram edges n off0) (n + 1), st2.nb⟩ v
          : Multiset (Option Nat)))
      congr 1
      have he1 : segListOf
          ⟨pipelineF (histogram edges n off0) (n + 1), st1.nb⟩ v
          = (dests s1 v).map some
            ++ List.replicate
                (pipelineF (histogram edges n off0) (n + 1) (v + 1)
                  - pipelineF (histogram edges n off0) (n + 1) v
                  - srcCount edges v) (none : Option Nat) := hl1
      have he2 : segListOf
          ⟨pipelineF (histogram edges n off0) (n + 1), st2.nb⟩ v
          = (dests s2 v).map some
            ++ List.replicate
                (pipelineF (histogram edges n off0) (n + 1) (v + 1)
                  - pipelineF (histogram edges n off0) (n + 1) v
                  - srcCount edges v) (none : Option Nat) := hl2
      rw [he1, he2]
      exact Multiset.coe_eq_coe.mpr
        (((dests_perm (hs1.trans hs2.symm) v).map some).append_right _)
  · have h1n : build_graph_sched off0 h1 s1 n = none := by
      unfold build_graph_sched
      rw [histogram_perm hh1 n off0, scan_pipeline_none _ _ (by omega)]
    have h2n : build_graph_sched off0 h2 s2 n = none := by
      unfold build_graph_sched
      rw [histogram_perm hh2 n off0, scan_pipeline_none _ _ (by omega)]
    rw [h1n, h2n]
    exact ⟨rfl, fun p => rfl, fun v _ => rfl⟩

end A2

namespace A2

/-- C1 (amended: `graph.offsets` must additionally be all-zero on entry —
`build_graph` never clears it): for a zero-initialized run satisfying the
stated preconditions, every vertex's neighbours sub-range
`[offsets v, offsets (v+1))`, as a multiset, equals the multiset of
destinations of the input edges whose source is `v`. -/
theorem C1_amended_segments (edges : List Edge) (n v : Nat)
    (hsrc : ∀ e ∈ edges, e.1 < n)
    (hcap : numBlocks (n + 1) ≤ 6144)
    (hv : v < n) :
    segMultisetOf (build_graph (fun _ => 0) edges n) v = some (destsM edges v) := by
  obtain ⟨st, hbg, hst⟩ := build_graph_zero edges n hsrc hcap
  have hbnd : ∀ u, u < n → 0 < srcCount edges u →
      zeroOffsets edges n u + srcCount edges u ≤ edges.length :=
    fun u hu _ => zeroOffsets_bound edges n hsrc u hu
  have hstep : ∀ u, u < n →
      zeroOffsets edges n u + srcCount edges u ≤ zeroOffsets edges n (u + 1) :=
    fun u hu => le_of_eq (zeroOffsets_step edges n u hu)
  have hmono : ∀ u w, u ≤ w → w ≤ n →
      zeroOffsets edges n u ≤ zeroOffsets edges n w :=
    fun u w h1 h2 => zeroOffsets_mono edges n u w h1 h2
  have hseg := store_segList n edges.length (zeroOffsets edges n) edges st
    hsrc hbnd hstep hmono hst v hv
  have hpad : zeroOffsets edges n (v + 1) - zeroOffsets edges n v
      - srcCount edges v = 0 := by
    have h1 := zeroOffsets_step edges n v hv
    omega
  rw [hpad, List.replicate_zero, List.append_nil] at hseg
  rw [hbg]
  show some ((segListOf ⟨zeroOffsets edges n, st.nb⟩ v : Multiset (Option Nat)))
      = some (destsM edges v)
  have hlist : segListOf ⟨zeroOffsets edges n, st.nb⟩ v
      = (dests edges v).map some := hseg
  rw [hlist]
  rfl

/-- Witness for C1 at the spec's concrete scenario (`n = 4`,
`edges = [(0,1),(0,2),(1,3),(2,3),(3,0)]`). -/
theorem C1_amended_segments_witness :
    (∀ e ∈ ([(0,1),(0,2),(1,3),(2,3),(3,0)] : List Edge), e.1 < 4)
    ∧ numBlocks (4 + 1) ≤ 6144
    ∧ 0 < 4
    ∧ segMultisetOf
        (build_graph (fun _ => 0) ([(0,1),(0,2),(1,3),(2,3),(3,0)] : List Edge) 4) 0
        = some (destsM ([(0,1),(0,2),(1,3),(2,3),(3,0)] : List Edge) 0) :=
  ⟨by decide, by decide, by decide,
   C1_amended_segments [(0,1),(0,2),(1,3),(2,3),(3,0)] 4 0
     (by decide) (by decide) (by decide)⟩

/-- Counterexample to C1 as stated: with the entry contents of `offsets`
arbitrary (here `[0, 0, 1]`, allowed by "contents undefined on entry"), the
phantom count makes vertex 1's segment `[offsets 1, offsets 2) = [1, 2)`
contain an unpopulated slot instead of the empty destination multiset. -/
theorem C1_cex :
    segMultisetOf
        (build_graph (fun p => if p = 2 then 1 else 0) ([(0,1)] : List Edge) 2) 1
      ≠ some (destsM ([(0,1)] : List Edge) 1) := by
  decide

/-- C2 (amended: `graph.offsets` must additionally be all-zero on entry): for
a zero-initialized run satisfying the stated preconditions, the offsets array
satisfies `offsets 0 = 0`, `offsets n = m` and is non-decreasing. -/
theorem C2_amended_offsets_invariants (edges : List Edge) (n : Nat)
    (hsrc : ∀ e ∈ edges, e.1 < n)
    (hcap : numBlocks (n + 1) ≤ 6144) :
    ∃ g, build_graph (fun _ => 0) edges n = some g
      ∧ g.offsets 0 = 0
      ∧ g.offsets n = edges.length
      ∧ ∀ i, i < n → g.offsets i ≤ g.offsets (i + 1) := by
  obtain ⟨st, hbg, -⟩ := build_graph_zero edges n hsrc hcap
  refine ⟨_, hbg, ?_, ?_, ?_⟩
  · show zeroOffsets edges n 0 = 0
    rw [zeroOffsets_eq edges n 0 (Nat.zero_le n)]
    simp
  · show zeroOffsets edges n n = edges.length
    rw [zeroOffsets_eq edges n n le_rfl, sum_srcCount edges n hsrc]
  · intro i hi
    show zeroOffsets edges n i ≤ zeroOffsets edges n (i + 1)
    exact zeroOffsets_mono edges n i (i + 1) (by omega) hi

/-- Witness for C2 at the spec's concrete scenario. -/
theorem C2_amended_offsets_invariants_witness :
    (∀ e ∈ ([(0,1),(0,2),(1,3),(2,3),(3,0)] : List Edge), e.1 < 4)
    ∧ numBlocks (4 + 1) ≤ 6144
    ∧ ∃ g, build_graph (fun _ => 0)
          ([(0,1),(0,2),(1,3),(2,3),(3,0)] : List Edge) 4 = some g
        ∧ g.offsets 0 = 0
        ∧ g.offsets 4 = ([(0,1),(0,2),(1,3),(2,3),(3,0)] : List Edge).length
        ∧ ∀ i, i < 4 → g.offsets i ≤ g.offsets (i + 1) :=
  ⟨by decide, by decide,
   C2_amended_offsets_invariants [(0,1),(0,2),(1,3),(2,3),(3,0)] 4
     (by decide) (by decide)⟩

/-- Counterexample to C2 as stated: entry contents `[1, 0]` (allowed by
"contents undefined on entry") survive into `offsets 0 = 1 ≠ 0`. -/
theorem C2_cex :
    offsetsAt (build_graph (fun p => if p = 0 then 1 else 0) ([] : List Edge) 1) 0
      ≠ some 0 := by
  decide

/-- C3 (amended: the histogram stage only increments, so the claim holds when
`offsets` is all-zero on entry rather than arbitrary): after the histogram
kernel, `offsets 0 = 0` and `offsets (v+1)` is the out-degree of `v`. -/
theorem C3_amended_histogram (edges : List Edge) (n v : Nat) (hv : v < n) :
    histogram edges n (fun _ => 0) 0 = 0
      ∧ histogram edges n (fun _ => 0) (v + 1) = srcCount edges v := by
  constructor
  · rw [histogram_at_zero]
  · rw [histogram_at_succ edges n _ v hv]
    simp

/-- Witness for C3. -/
theorem C3_amended_histogram_witness :
    0 < 1
    ∧ histogram ([(0,5)] : List Edge) 1 (fun _ => 0) 0 = 0
    ∧ histogram ([(0,5)] : List Edge) 1 (fun _ => 0) (0 + 1)
        = srcCount ([(0,5)] : List Edge) 0 :=
  ⟨by decide,
   (C3_amended_histogram [(0,5)] 1 0 (by decide)).1,
   (C3_amended_histogram [(0,5)] 1 0 (by decide)).2⟩

/-- Counterexample to C3 as stated: with arbitrary entry contents (here
`offsets = [5, 7]`) the histogram stage leaves `offsets 0 = 5` and produces
`offsets 1 = 8`, not the out-degree. -/
theorem C3_cex :
    ¬ (histogram ([(0,0)] : List Edge) 1 (fun p => if p = 0 then 5 else 7) 0 = 0
        ∧ histogram ([(0,0)] : List Edge) 1 (fun p => if p = 0 then 5 else 7) (0 + 1)
            = srcCount ([(0,0)] : List Edge) 0) := by
  decide

/-- C4: on inputs spanning more than one group, the two-level scan pipeline
(`prefix_sum`, `single_block_prefix_sum` on the group totals,
`finish_prefix_sum`) produces the correct global inclusive prefix sum at
every position `p ≤ n`, for arbitrary per-vertex counts in `offsets`. -/
theorem C4_two_level_scan (off : Nat → Nat) (n p : Nat)
    (hmany : 1024 < n + 1)
    (hcap : numBlocks (n + 1) ≤ 6144)
    (hp : p ≤ n) :
    (scan_pipeline off (n + 1)).map (fun f => f p)
      = some (∑ i in Finset.range (p + 1), off i) := by
  rw [scan_pipeline_some off (n + 1) hcap]
  show some (pipelineF off (n + 1) p) = _
  rw [pipelineF_char off (n + 1) p (by omega)]

/-- Witness for C4 with two blocks (`n + 1 = 2048`). -/
theorem C4_two_level_scan_witness :
    1024 < 2047 + 1
    ∧ numBlocks (2047 + 1) ≤ 6144
    ∧ 1500 ≤ 2047
    ∧ (scan_pipeline (fun _ => 1) (2047 + 1)).map (fun f => f 1500)
        = some 1501 := by
  refine ⟨by decide, by decide, by decide, ?_⟩
  rw [C4_two_level_scan (fun _ => 1) 2047 1500 (by decide) (by decide) (by decide)]
  simp

/-- C5 (the claim describes required behavior; the code has no such check):
whenever the group-totals array exceeds the 6144-element budget, the model of
the run ends in the out-of-bounds shared-memory access inside
`single_block_prefix_sum` (`none`) — no stage of `build_graph` rejects the
input beforehand. -/
theorem C5_no_capacity_check (off0 : Nat → Nat) (edges : List Edge) (n : Nat)
    (hcap : 6144 < numBlocks (n + 1)) :
    build_graph off0 edges n = none := by
  unfold build_graph build_graph_sched
  rw [scan_pipeline_none _ _ hcap]

/-- Witness for C5 at `n = 6292479` (6145 groups). -/
theorem C5_no_capacity_check_witness :
    6144 < numBlocks (6292479 + 1)
    ∧ build_graph (fun _ => 0) ([] : List Edge) 6292479 = none :=
  ⟨by decide, C5_no_capacity_check (fun _ => 0) [] 6292479 (by decide)⟩

/-- C6 (amended: the silent drop happens only in the degree-counting stage;
the scatter stage does not drop such edges but performs an out-of-bounds
counter access): the histogram result coincides with the histogram of the
in-range edges, while `store`'s per-edge step faults on any edge with source
`>= n`. -/
theorem C6_amended_drop_policy (edges : List Edge) (n m : Nat)
    (off : Nat → Nat) (st : StoreState) (e : Edge) (hn : n ≤ e.1) :
    histogram edges n off = histogram (edges.filter (fun a => a.1 < n)) n off
      ∧ storeStep n m st e = none := by
  constructor
  · funext p
    rw [histogram_apply, histogram_apply]
    congr 1
    rw [List.filter_filter]
    have hfeq : List.filter (fun a => decide (a.1 < n ∧ a.1 + 1 = p)) edges
        = List.filter
            (fun a => decide (a.1 < n ∧ a.1 + 1 = p) && decide (a.1 < n)) edges := by
      apply List.filter_congr
      intro a _
      rcases Nat.lt_or_ge a.1 n with h | h
      · simp [h]
      · simp [Nat.not_lt.mpr h]
    rw [hfeq]
  · unfold storeStep
    rw [if_neg (by omega)]

/-- Witness for C6. -/
theorem C6_amended_drop_policy_witness :
    1 ≤ 5
    ∧ (histogram ([(5,0)] : List Edge) 1 (fun _ => 0)
          = histogram (([(5,0)] : List Edge).filter (fun a => a.1 < 1)) 1 (fun _ => 0)
        ∧ storeStep 1 1 ⟨fun _ => 0, fun _ => none⟩ ((5 : Nat), (0 : Nat)) = none) :=
  ⟨by decide,
   C6_amended_drop_policy [(5,0)] 1 1 (fun _ => 0)
     ⟨fun _ => 0, fun _ => none⟩ (5, 0) (by decide)⟩

/-- Counterexample to C6 as stated: an input containing an edge with source
`5 >= n = 1` does not behave as if that edge were absent — the scatter stage
hits the out-of-bounds counter access and the construction never completes,
while the same input without the edge completes. -/
theorem C6_cex :
    (build_graph (fun _ => 0) ([(5,0)] : List Edge) 1).isSome = false
      ∧ (build_graph (fun _ => 0) ([] : List Edge) 1).isSome = true := by
  constructor <;> decide

/-- C8 (amended: `graph.offsets` must additionally be all-zero on entry, and
`n = 0` forces `m = 0` since every edge endpoint must be a vertex index):
with an empty edge list the construction completes with an all-zero offsets
array and no populated neighbours entry. -/
theorem C8_amended_empty (n p q : Nat)
    (hcap : numBlocks (n + 1) ≤ 6144) (hp : p ≤ n) :
    offsetsAt (build_graph (fun _ => 0) [] n) p = some 0
      ∧ nbAt (build_graph (fun _ => 0) [] n) q = some none := by
  obtain ⟨st, hbg, hst⟩ := build_graph_zero [] n (by simp) hcap
  constructor
  · rw [hbg]
    show some (zeroOffsets [] n p) = some 0
    rw [zeroOffsets_eq [] n p hp]
    simp [srcCount]
  · rw [hbg]
    show some (st.nb q) = some none
    have hid : st = ⟨create_scratch (zeroOffsets [] n) n, fun _ => none⟩ :=
      (Option.some.inj hst).symm
    rw [hid]

/-- Witness for C8 at `n = 0`. -/
theorem C8_amended_empty_witness :
    numBlocks (0 + 1) ≤ 6144
    ∧ (0 : Nat) ≤ 0
    ∧ (offsetsAt (build_graph (fun _ => 0) [] 0) 0 = some 0
        ∧ nbAt (build_graph (fun _ => 0) [] 0) 0 = some none) :=
  ⟨by decide, le_rfl, C8_amended_empty 0 0 0 (by decide) le_rfl⟩

/-- Counterexample to C8 as stated: with `m = 0` but arbitrary entry contents
(here `offsets = [0, 1]`) the final offsets array is not entirely zero. -/
theorem C8_cex :
    offsetsAt (build_graph (fun p => if p = 1 then 1 else 0) ([] : List Edge) 1) 1
      ≠ some 0 := by
  decide

/-- C9: in `single_block_prefix_sum` every thread executes exactly the same
number of barrier rounds as every other thread, for every array length `n`,
whatever lanes are in range for it — the barriers sit outside the lane
guards and all loop iteration counts that contain barriers are
thread-independent. -/
theorem C9_lockstep_barriers (n t u : Nat) : syncCount n t = syncCount n u := by
  rw [threadTrace_syncs, threadTrace_syncs]

/-- C10: with `n + 1 <= 1024` (a single group), the `prefix_sum` kernel alone
already computes the inclusive prefix sum at every position `p ≤ n`; the
wraparound loads only occupy lanes past `n` and never reach a written-back
position. -/
theorem C10_single_block_scan (off : Nat → Nat) (n p : Nat)
    (hn : n + 1 ≤ 1024) (hp : p ≤ n) :
    prefix_sum off (n + 1) p = ∑ i in Finset.range (p + 1), off i := by
  rw [prefix_sum_char off (n + 1) p (by omega)]
  have h0 : p / 1024 = 0 := by omega
  rw [h0, Finset.range_eq_Ico]

/-- Witness for C10. -/
theorem C10_single_block_scan_witness :
    2 + 1 ≤ 1024 ∧ 2 ≤ 2
    ∧ prefix_sum (fun i => i) (2 + 1) 2 = 3 := by
  refine ⟨by decide, le_rfl, ?_⟩
  rw [C10_single_block_scan (fun i => i) 2 2 (by decide) le_rfl]
  decide

/-- Witness for C7 on a two-edge input with distinct scatter schedules. -/
theorem C7_schedule_independence_witness :
    (([(0,2),(0,1)] : List Edge).Perm [(0,1),(0,2)]
        ∧ ([(0,1),(0,2)] : List Edge).Perm [(0,1),(0,2)])
    ∧ ((build_graph_sched (fun _ => 0) [(0,1),(0,2)] [(0,1),(0,2)] 1).isSome
          = (build_graph_sched (fun _ => 0) [(0,1),(0,2)] [(0,2),(0,1)] 1).isSome
        ∧ (∀ p, offsetsAt (build_graph_sched (fun _ => 0) [(0,1),(0,2)] [(0,1),(0,2)] 1) p
              = offsetsAt (build_graph_sched (fun _ => 0) [(0,1),(0,2)] [(0,2),(0,1)] 1) p)
        ∧ (∀ v, v < 1 →
            segMultisetOf (build_graph_sched (fun _ => 0) [(0,1),(0,2)] [(0,1),(0,2)] 1) v
              = segMultisetOf (build_graph_sched (fun _ => 0) [(0,1),(0,2)] [(0,2),(0,1)] 1) v)) :=
  ⟨⟨by decide, by decide⟩,
   C7_schedule_independence (fun _ => 0) [(0,1),(0,2)]
     [(0,1),(0,2)] [(0,1),(0,2)] [(0,1),(0,2)] [(0,2),(0,1)] 1
     (by decide) (by decide) (by decide) (by decide)⟩

end A2
